import Mathlib

/-!
Shallow embedding of `blackvuesync.py`, a dashcam synchronization utility.

Strings are modelled as `List Char`.  Python exceptions are modelled with
`Except String`.  The regular expressions of the source are deterministic
(fixed-width groups, or greedy groups whose split is forced by `fullmatch`),
so each is embedded as an explicit matching function.  Python's `\d` and `\w`
are modelled over their ASCII ranges.
-/

namespace BlackVueSync

/-- Calendar date (year, month, day), as Python `datetime.date`.  Comparison is
lexicographic. -/
structure Date where
  year : Nat
  month : Nat
  day : Nat
deriving DecidableEq, Repr

/-- Calendar date-time, as Python `datetime.datetime` restricted to the fields
the program uses. -/
structure DateTime where
  year : Nat
  month : Nat
  day : Nat
  hour : Nat
  minute : Nat
  second : Nat
deriving DecidableEq, Repr

/-- Python `datetime.datetime.date()`: drop the time-of-day fields. -/
def DateTime.dateOf (dt : DateTime) : Date := ⟨dt.year, dt.month, dt.day⟩

/-- Python `date` strict comparison `<`: lexicographic on (year, month, day). -/
def dateLt (a b : Date) : Bool :=
  decide (a.year < b.year) ||
    (a.year == b.year &&
      (decide (a.month < b.month) || (a.month == b.month && decide (a.day < b.day))))

def isLeapYear (y : Nat) : Bool :=
  y % 4 == 0 && (y % 100 != 0 || y % 400 == 0)

def daysInMonth (y m : Nat) : Nat :=
  if m == 2 then (if isLeapYear y then 29 else 28)
  else if m == 4 || m == 6 || m == 9 || m == 11 then 30
  else 31

/-- The validity check performed by the `datetime.datetime` constructor
(`MINYEAR = 1`, `MAXYEAR = 9999`); the constructor raises `ValueError` when
this is false. -/
def validDateTime (dt : DateTime) : Bool :=
  decide (1 ≤ dt.year) && decide (dt.year ≤ 9999) &&
  decide (1 ≤ dt.month) && decide (dt.month ≤ 12) &&
  decide (1 ≤ dt.day) && decide (dt.day ≤ daysInMonth dt.year dt.month) &&
  decide (dt.hour ≤ 23) && decide (dt.minute ≤ 59) && decide (dt.second ≤ 59)

/-- The `Recording` namedtuple: filename and metadata. -/
structure Recording where
  filename : List Char
  datetime : DateTime
  type : Char
  direction : Char
  extension : List Char
deriving DecidableEq, Repr

/-! ### Character classes and digit sequences -/

/-- Python `\w` (ASCII range): letters, digits, underscore. -/
def isWordChar (c : Char) : Bool := c.isAlphanum || c == '_'

/-- Numeric value of a decimal digit character. -/
def digitVal (c : Char) : Nat := c.toNat - 48

/-- `int(...)` on a digit string, starting from accumulator `acc`. -/
def numValFrom (acc : Nat) (cs : List Char) : Nat :=
  cs.foldl (fun a c => 10 * a + digitVal c) acc

/-- `int(...)` on a digit string. -/
def numVal (cs : List Char) : Nat := numValFrom 0 cs

/-- Match exactly `n` decimal digits at the head of the input, returning their
numeric value (built on top of `acc`) and the remaining input. -/
def matchDigits : Nat → Nat → List Char → Option (Nat × List Char)
  | acc, 0, cs => some (acc, cs)
  | _, _ + 1, [] => none
  | acc, n + 1, c :: cs =>
      if c.isDigit then matchDigits (10 * acc + digitVal c) n cs else none

/-- Match one literal character at the head of the input. -/
def matchLit (c : Char) : List Char → Option (List Char)
  | [] => none
  | c' :: cs => if c' == c then some cs else none

/-- Match one character from a character class at the head of the input. -/
def matchClass (cls : List Char) : List Char → Option (Char × List Char)
  | [] => none
  | c :: cs => if cls.contains c then some (c, cs) else none

/-! ### Filename parser (`filename_re` and `get_recording`) -/

/-- `re.fullmatch` of `filename_re`:
`(\d{4})(\d\d)(\d\d)_(\d\d)(\d\d)(\d\d)_[NEPM][FR]\.\w+`.
All groups up to the dot have fixed width, and the trailing `\w+` must cover
the whole remainder, so the regex is deterministic. -/
def filename_match (cs : List Char) : Option (DateTime × Char × Char × List Char) :=
  (matchDigits 0 4 cs).bind fun (y, cs) =>
  (matchDigits 0 2 cs).bind fun (mo, cs) =>
  (matchDigits 0 2 cs).bind fun (d, cs) =>
  (matchLit '_' cs).bind fun cs =>
  (matchDigits 0 2 cs).bind fun (h, cs) =>
  (matchDigits 0 2 cs).bind fun (mi, cs) =>
  (matchDigits 0 2 cs).bind fun (s, cs) =>
  (matchLit '_' cs).bind fun cs =>
  (matchClass ['N', 'E', 'P', 'M'] cs).bind fun (t, cs) =>
  (matchClass ['F', 'R'] cs).bind fun (dr, cs) =>
  (matchLit '.' cs).bind fun cs =>
  if cs ≠ [] && cs.all isWordChar then some (⟨y, mo, d, h, mi, s⟩, t, dr, cs) else none

/-- `get_recording`: extracts recording information from a filename.
`.ok none` models the Python `return None` on a non-matching filename;
`.error` models the `ValueError` raised by the `datetime.datetime`
constructor on a matching filename with invalid calendar fields. -/
def get_recording (cs : List Char) : Except String (Option Recording) :=
  match filename_match cs with
  | none => .ok none
  | some (dt, t, dr, ext) =>
      if validDateTime dt then .ok (some ⟨cs, dt, t, dr, ext⟩)
      else .error "ValueError"

/-! ### Remote listing parser (`file_line_re` and `get_filenames`) -/

/-- The literal `n:/Record/` opening of `file_line_re`. -/
def recPre : List Char := ['n', ':', '/', 'R', 'e', 'c', 'o', 'r', 'd', '/']

/-- The literal `,s:1000000\r\n` tail of `file_line_re`. -/
def sizeSuffixL : List Char :=
  [',', 's', ':', '1', '0', '0', '0', '0', '0', '0', '\r', '\n']

/-- The literal `.mp4` that the filename group must end with. -/
def mp4SuffixL : List Char := ['.', 'm', 'p', '4']

/-- `re.fullmatch` of `file_line_re`: `n:/Record/(.*\.mp4),s:1000000\r\n`.
The literal tail must occupy the last 12 characters and the literal head the
first 10, so the group is the unique middle slice; `.` excludes `'\n'`. -/
def file_line_match (line : List Char) : Option (List Char) :=
  if line.length < 22 then none
  else
    let f := (line.drop 10).take (line.length - 22)
    if line == recPre ++ f ++ sizeSuffixL && f.drop (f.length - 4) == mp4SuffixL &&
        !f.contains '\n'
    then some f
    else none

/-- `get_filenames`: extracts the recording filenames from the lines returned
by the dashcam index page, skipping lines that do not match. -/
def get_filenames : List (List Char) → List (List Char)
  | [] => []
  | line :: rest =>
      match file_line_match line with
      | some f => f :: get_filenames rest
      | none => get_filenames rest

/-! ### Retention calculator (`keep_re` and `calc_cutoff_date`) -/

/-- `re.fullmatch` of `keep_re` `(\d+)([dw]?)`: the greedy `\d+` takes the
maximal digit run (neither `d` nor `w` is a digit), and the remainder must be
empty or a single `d`/`w`.  Returns (numeric range, unit group). -/
def keep_match (cs : List Char) : Option (Nat × List Char) :=
  if cs.takeWhile Char.isDigit == [] then none
  else if cs.dropWhile Char.isDigit == [] || cs.dropWhile Char.isDigit == ['d'] ||
      cs.dropWhile Char.isDigit == ['w'] then
    some (numVal (cs.takeWhile Char.isDigit), cs.dropWhile Char.isDigit)
  else none

/-- `calc_cutoff_date`, with "today" supplied as an absolute day number and the
result returned as an absolute day number (calendar day arithmetic: the
`timedelta` subtracted is `range` days, or `7 * range` days for unit `w`).
The `keep_unit is "w"` identity test of the source behaves as equality for the
one-character strings produced here (CPython interns them). -/
def calc_cutoff_date (keep : List Char) (today : Int) : Except String Int :=
  match keep_match keep with
  | none => .error "KEEP must be in the format <number>[dw]"
  | some (range, unitGroup) =>
      if range < 1 then .error "KEEP must be greater than one."
      else
        let unit := if unitGroup == [] then ['d'] else unitGroup
        if unit == ['d'] then .ok (today - range)
        else if unit == ['w'] then .ok (today - 7 * range)
        else .error "unknown KEEP unit"

/-- Whether an `Except` is an error. -/
def isErr {α : Type} : Except String α → Bool
  | .error _ => true
  | .ok _ => false

/-! ### Effects model

The destination directory is modelled as the list of filenames present in it
(`.`-prefixed names are in-progress temporary files).  Every observable action
is recorded as an `Event`; `attempt f` records an invocation of
`download_file` with filename `f`, `retrieve f` the actual network transfer
(`urlretrieve`), and the `print*` constructors the progress messages. -/

inductive Event where
  | makedirs
  | attempt (f : List Char)
  | retrieve (f : List Char)
  | rename (src dst : List Char)
  | remove (f : List Char)
  | printAlready (f : List Char)
  | printUnfinished (f : List Char)
  | printDownloading (f : List Char)
  | printWouldDownload (f : List Char)
  | printWouldRemove (f : List Char)
deriving DecidableEq, Repr

/-- Whether an event mutates the filesystem or performs a network transfer. -/
def Event.isMutation : Event → Bool
  | .makedirs => true
  | .retrieve _ => true
  | .rename _ _ => true
  | .remove _ => true
  | _ => false

/-- The hidden temporary filename `".%s" % filename`. -/
def tempName (f : List Char) : List Char := '.' :: f

/-- `download_file`: skip when the file already exists; otherwise (outside a
dry run) retrieve into the temporary file and rename it into place.  Returns
the new directory contents and the events performed. -/
def download_file (fs : List (List Char)) (f : List Char) (dry : Bool) :
    List (List Char) × List Event :=
  if fs.contains f then
    (fs, [.attempt f, .printAlready f])
  else
    let unfinished : List Event :=
      if fs.contains (tempName f) then [.printUnfinished f] else []
    if dry then
      (fs, .attempt f :: unfinished ++ [.printWouldDownload f])
    else
      (f :: fs.erase (tempName f),
        .attempt f :: unfinished ++ [.printDownloading f, .retrieve f, .rename (tempName f) f])

/-- The literal `_NF.mp4` suffix that triggers companion downloads. -/
def nfSuffixL : List Char := ['_', 'N', 'F', '.', 'm', 'p', '4']

/-- Python `filename.endswith(suf)`. -/
def endsWithL (suf l : List Char) : Bool := l.drop (l.length - suf.length) == suf

/-- Python `filename[:-n]`. -/
def dropLastN (l : List Char) (n : Nat) : List Char := l.take (l.length - n)

/-- The `.gps` companion filename for a base name. -/
def gpsName (base : List Char) : List Char := base ++ ['_', 'N', '.', 'g', 'p', 's']

/-- The `.3gf` companion filename for a base name. -/
def tgfName (base : List Char) : List Char := base ++ ['_', 'N', '.', '3', 'g', 'f']

/-- `download_recording`: download the main file and, for `*_NF.mp4` files,
its `.gps` and `.3gf` companions.  The argument is an `Option Recording`
because `sync` passes unfiltered parse results; `recording.filename` on
`None` raises `AttributeError`. -/
def download_recording (fs : List (List Char)) (rec : Option Recording) (dry : Bool) :
    Except String (List (List Char) × List Event) :=
  match rec with
  | none => .error "AttributeError"
  | some r =>
      let p1 := download_file fs r.filename dry
      if endsWithL nfSuffixL r.filename then
        let p2 := download_file p1.1 (gpsName (dropLastN r.filename 7)) dry
        let p3 := download_file p2.1 (tgfName (dropLastN r.filename 7)) dry
        .ok (p3.1, p1.2 ++ p2.2 ++ p3.2)
      else
        .ok (p1.1, p1.2)

/-- `[get_recording(x) for x in dashcam_filenames]`: each parse may raise. -/
def get_recordings_list : List (List Char) → Except String (List (Option Recording))
  | [] => .ok []
  | f :: rest =>
      match get_recording f with
      | .error e => .error e
      | .ok r =>
          match get_recordings_list rest with
          | .error e => .error e
          | .ok rs => .ok (r :: rs)

/-- The list comprehension inside `get_current_recordings` for a set cutoff:
`[x for x in recordings if x.datetime.date() >= cutoff_date]`.  A `None`
element raises `AttributeError` when its `datetime` attribute is read. -/
def get_current_list (c : Date) : List (Option Recording) → Except String (List (Option Recording))
  | [] => .ok []
  | none :: _ => .error "AttributeError"
  | some r :: rest =>
      match get_current_list c rest with
      | .error e => .error e
      | .ok tail => .ok (if !dateLt r.datetime.dateOf c then some r :: tail else tail)

/-- `get_current_recordings`: recordings on or after the cutoff date (all of
them when no cutoff is set). -/
def get_current_recordings (cutoff : Option Date) (rs : List (Option Recording)) :
    Except String (List (Option Recording)) :=
  match cutoff with
  | none => .ok rs
  | some c => get_current_list c rs

/-- The download loop at the end of `sync`. -/
def download_loop (fs : List (List Char)) (dry : Bool) :
    List (Option Recording) → Except String (List (List Char) × List Event)
  | [] => .ok (fs, [])
  | r :: rest =>
      match download_recording fs r dry with
      | .error e => .error e
      | .ok p =>
          match download_loop p.1 dry rest with
          | .error e => .error e
          | .ok q => .ok (q.1, p.2 ++ q.2)

/-- `sync`: list the dashcam, parse each filename, filter by cutoff, download.
The remote listing is supplied as its response lines. -/
def sync (remote : List (List Char)) (fs : List (List Char)) (cutoff : Option Date)
    (dry : Bool) : Except String (List (List Char) × List Event) :=
  match get_recordings_list (get_filenames remote) with
  | .error e => .error e
  | .ok recs =>
      match get_current_recordings cutoff recs with
      | .error e => .error e
      | .ok current => download_loop fs dry current

/-! ### Destination preparation -/

/-- The state of the destination path. -/
structure Dest where
  present : Bool
  isdir : Bool
  writable : Bool
  files : List (List Char)
deriving DecidableEq, Repr

/-- `get_destination_recordings`: parse every directory entry, keeping the
non-`None` results (a parse that raises propagates). -/
def get_destination_recordings : List (List Char) → Except String (List Recording)
  | [] => .ok []
  | f :: rest =>
      match get_recording f with
      | .error e => .error e
      | .ok r =>
          match get_destination_recordings rest with
          | .error e => .error e
          | .ok rs =>
              .ok (match r with
                | some rec => rec :: rs
                | none => rs)

/-- `get_outdated_recordings`: recordings strictly before the cutoff date
(none when no cutoff is set). -/
def get_outdated_recordings (cutoff : Option Date) (rs : List Recording) : List Recording :=
  match cutoff with
  | none => []
  | some c => rs.filter (fun r => dateLt r.datetime.dateOf c)

/-- The pruning loop of `prepare_destination`: remove each outdated recording,
or only report it in a dry run. -/
def prune (files : List (List Char)) (dry : Bool) :
    List Recording → List (List Char) × List Event
  | [] => (files, [])
  | r :: rest =>
      if dry then
        ((prune files dry rest).1, .printWouldRemove r.filename :: (prune files dry rest).2)
      else
        ((prune (files.erase r.filename) dry rest).1,
          .remove r.filename :: (prune (files.erase r.filename) dry rest).2)

/-- `prepare_destination`: create a missing destination (note: `os.makedirs`
runs even in a dry run), validate that it is a writable directory, and prune
outdated recordings when a cutoff date is set. -/
def prepare_destination (d : Dest) (cutoff : Option Date) (dry : Bool) :
    Except String (Dest × List Event) :=
  if !d.present then
    .ok (⟨true, true, true, []⟩, [.makedirs])
  else if !d.isdir then .error "destination is not a directory"
  else if !d.writable then .error "destination directory not writable"
  else
    match cutoff with
    | none => .ok (d, [])
    | some c =>
        match get_destination_recordings d.files with
        | .error e => .error e
        | .ok existing =>
            .ok ({ d with files := (prune d.files dry (get_outdated_recordings (some c) existing)).1 },
              (prune d.files dry (get_outdated_recordings (some c) existing)).2)

/-- One whole run: destination preparation followed by sync, as in `run`
(with configuration already computed). -/
def run_model (d : Dest) (remote : List (List Char)) (cutoff : Option Date) (dry : Bool) :
    Except String (Dest × List Event) :=
  match prepare_destination d cutoff dry with
  | .error e => .error e
  | .ok p =>
      match sync remote p.1.files cutoff dry with
      | .error e => .error e
      | .ok q => .ok ({ p.1 with files := q.1 }, p.2 ++ q.2)

/-- The filenames passed to `download_file`, in call order. -/
def attemptsOf (evs : List Event) : List (List Char) :=
  evs.filterMap fun e =>
    match e with
    | .attempt f => some f
    | _ => none

/-- A recording produced by `get_recording`: its filename opens with a digit
and is at least 8 characters long. -/
def GoodRec (r : Recording) : Prop :=
  (∃ c rest, r.filename = c :: rest ∧ c.isDigit = true) ∧ 8 ≤ r.filename.length

/-- The filenames `download_recording` hands to `download_file`. -/
def recAttempts (r : Recording) : List (List Char) :=
  r.filename ::
    (if endsWithL nfSuffixL r.filename then
      [gpsName (dropLastN r.filename 7), tgfName (dropLastN r.filename 7)] else [])

/-! ### Specification-side predicates

These definitions follow the spec's wording, for comparison with the
operational definitions above. -/

/-- The canonical filename pattern of the spec:
`YYYYMMDD_HHMMSS_<T><D>.<ext>` with `T ∈ {N,E,P,M}`, `D ∈ {F,R}`, and a
nonempty word-character extension. -/
def specCanonicalPattern (cs : List Char) : Prop :=
  ∃ (y4 mo2 d2 h2 mi2 s2 : List Char) (t dr : Char) (ext : List Char),
    cs = y4 ++ (mo2 ++ (d2 ++ ('_' :: (h2 ++ (mi2 ++ (s2 ++ ('_' :: t :: dr :: '.' :: ext))))))) ∧
    y4.length = 4 ∧ mo2.length = 2 ∧ d2.length = 2 ∧
    h2.length = 2 ∧ mi2.length = 2 ∧ s2.length = 2 ∧
    y4.all Char.isDigit = true ∧ mo2.all Char.isDigit = true ∧ d2.all Char.isDigit = true ∧
    h2.all Char.isDigit = true ∧ mi2.all Char.isDigit = true ∧ s2.all Char.isDigit = true ∧
    (t = 'N' ∨ t = 'E' ∨ t = 'P' ∨ t = 'M') ∧ (dr = 'F' ∨ dr = 'R') ∧
    ext ≠ [] ∧ ext.all isWordChar = true

/-- The remote-listing line shape claimed by the spec: any filename, any
nonempty decimal size. -/
def specClaimedLine (l f : List Char) : Prop :=
  ∃ size, size ≠ [] ∧ size.all Char.isDigit = true ∧
    l = recPre ++ f ++ [',', 's', ':'] ++ size ++ ['\r', '\n']

/-- The keep-specification pattern `^(\d+)([dw]?)$` of the spec. -/
def specKeepPattern (cs : List Char) : Prop :=
  ∃ ds u, cs = ds ++ u ∧ ds ≠ [] ∧ ds.all Char.isDigit = true ∧
    (u = [] ∨ u = ['d'] ∨ u = ['w'])

/-! ### Lemmas about the primitive matchers -/

theorem contains_iff {α : Type} [BEq α] [LawfulBEq α] {l : List α} {a : α} :
    l.contains a = true ↔ a ∈ l := by
  simp [List.contains, List.elem_iff]

theorem matchDigits_complete (pre : List Char) :
    ∀ (acc : Nat) (rest : List Char), pre.all Char.isDigit = true →
      matchDigits acc pre.length (pre ++ rest) = some (numValFrom acc pre, rest) := by
  induction pre with
  | nil => intro acc rest _; rfl
  | cons c cs ih =>
      intro acc rest h
      simp only [List.all_cons, Bool.and_eq_true] at h
      simp only [List.length_cons, List.cons_append, matchDigits, h.1, if_true]
      rw [List.append_eq, ih _ rest h.2]
      rfl

theorem matchDigits_sound :
    ∀ (n : Nat) (acc : Nat) (cs : List Char) (v : Nat) (rest : List Char),
      matchDigits acc n cs = some (v, rest) →
      ∃ pre, cs = pre ++ rest ∧ pre.length = n ∧ pre.all Char.isDigit = true ∧
        v = numValFrom acc pre := by
  intro n
  induction n with
  | zero =>
      intro acc cs v rest h
      simp only [matchDigits, Option.some.injEq, Prod.mk.injEq] at h
      exact ⟨[], by simp [h.1, h.2, numValFrom]⟩
  | succ n ih =>
      intro acc cs v rest h
      cases cs with
      | nil => simp [matchDigits] at h
      | cons c cs =>
          simp only [matchDigits] at h
          by_cases hc : c.isDigit
          · rw [if_pos hc] at h
            obtain ⟨pre, hcs, hlen, hall, hv⟩ := ih _ cs v rest h
            refine ⟨c :: pre, by simp [hcs], by simp [hlen], ?_, ?_⟩
            · simp [hall, hc]
            · simp [numValFrom, List.foldl_cons] at hv ⊢
              exact hv
          · rw [if_neg hc] at h
            exact absurd h (by simp)

theorem matchLit_sound {c : Char} {cs rest : List Char} (h : matchLit c cs = some rest) :
    cs = c :: rest := by
  cases cs with
  | nil => simp [matchLit] at h
  | cons c' cs =>
      simp only [matchLit] at h
      by_cases hc : c' == c
      · rw [if_pos hc] at h
        simp only [Option.some.injEq] at h
        rw [h, eq_of_beq hc]
      · rw [if_neg hc] at h
        exact absurd h (by simp)

theorem matchLit_complete (c : Char) (rest : List Char) :
    matchLit c (c :: rest) = some rest := by
  simp [matchLit]

theorem matchClass_sound {cls cs : List Char} {c : Char} {rest : List Char}
    (h : matchClass cls cs = some (c, rest)) :
    cs = c :: rest ∧ c ∈ cls := by
  cases cs with
  | nil => simp [matchClass] at h
  | cons c' cs =>
      simp only [matchClass] at h
      by_cases hc : cls.contains c'
      · rw [if_pos hc] at h
        simp only [Option.some.injEq, Prod.mk.injEq] at h
        refine ⟨by rw [h.1, h.2], ?_⟩
        rw [← h.1]
        exact contains_iff.mp hc
      · rw [if_neg hc] at h
        exact absurd h (by simp)

theorem matchClass_complete {cls : List Char} {c : Char} (rest : List Char)
    (h : c ∈ cls) : matchClass cls (c :: rest) = some (c, rest) := by
  simp only [matchClass, contains_iff.mpr h, if_true]

/-! ### Lemmas about `filename_match` and `get_recording` -/

theorem matchDigits_complete2 (pre : List Char) (acc n : Nat) (rest : List Char)
    (hlen : pre.length = n) (h : pre.all Char.isDigit = true) :
    matchDigits acc n (pre ++ rest) = some (numValFrom acc pre, rest) := by
  subst hlen
  exact matchDigits_complete pre acc rest h

theorem filename_match_complete (y4 mo2 d2 h2 mi2 s2 : List Char) (t dr : Char)
    (ext : List Char)
    (hy : y4.length = 4) (hmo : mo2.length = 2) (hd : d2.length = 2)
    (hh : h2.length = 2) (hmi : mi2.length = 2) (hs : s2.length = 2)
    (hyd : y4.all Char.isDigit = true) (hmod : mo2.all Char.isDigit = true)
    (hdd : d2.all Char.isDigit = true) (hhd : h2.all Char.isDigit = true)
    (hmid : mi2.all Char.isDigit = true) (hsd : s2.all Char.isDigit = true)
    (ht : t = 'N' ∨ t = 'E' ∨ t = 'P' ∨ t = 'M') (hdr : dr = 'F' ∨ dr = 'R')
    (hext : ext ≠ []) (hextw : ext.all isWordChar = true) :
    filename_match
      (y4 ++ (mo2 ++ (d2 ++ ('_' :: (h2 ++ (mi2 ++ (s2 ++ ('_' :: t :: dr :: '.' :: ext)))))))) =
      some (⟨numVal y4, numVal mo2, numVal d2, numVal h2, numVal mi2, numVal s2⟩, t, dr, ext) := by
  have ht' : t ∈ (['N', 'E', 'P', 'M'] : List Char) := by
    rcases ht with h | h | h | h <;> simp [h]
  have hdr' : dr ∈ (['F', 'R'] : List Char) := by
    rcases hdr with h | h <;> simp [h]
  unfold filename_match
  rw [matchDigits_complete2 y4 0 4 _ hy hyd]
  simp only [Option.some_bind]
  rw [matchDigits_complete2 mo2 0 2 _ hmo hmod]
  simp only [Option.some_bind]
  rw [matchDigits_complete2 d2 0 2 _ hd hdd]
  simp only [Option.some_bind]
  rw [matchLit_complete]
  simp only [Option.some_bind]
  rw [matchDigits_complete2 h2 0 2 _ hh hhd]
  simp only [Option.some_bind]
  rw [matchDigits_complete2 mi2 0 2 _ hmi hmid]
  simp only [Option.some_bind]
  rw [matchDigits_complete2 s2 0 2 _ hs hsd]
  simp only [Option.some_bind]
  rw [matchLit_complete]
  simp only [Option.some_bind]
  rw [matchClass_complete _ ht']
  simp only [Option.some_bind]
  rw [matchClass_complete _ hdr']
  simp only [Option.some_bind]
  rw [matchLit_complete]
  simp only [Option.some_bind]
  simp [hext, hextw, numVal]

theorem filename_match_sound {cs : List Char} {dt : DateTime} {t dr : Char} {ext : List Char}
    (h : filename_match cs = some (dt, t, dr, ext)) :
    ∃ (y4 mo2 d2 h2 mi2 s2 : List Char),
      cs = y4 ++ (mo2 ++ (d2 ++ ('_' :: (h2 ++ (mi2 ++ (s2 ++ ('_' :: t :: dr :: '.' :: ext))))))) ∧
      y4.length = 4 ∧ mo2.length = 2 ∧ d2.length = 2 ∧
      h2.length = 2 ∧ mi2.length = 2 ∧ s2.length = 2 ∧
      y4.all Char.isDigit = true ∧ mo2.all Char.isDigit = true ∧ d2.all Char.isDigit = true ∧
      h2.all Char.isDigit = true ∧ mi2.all Char.isDigit = true ∧ s2.all Char.isDigit = true ∧
      (t = 'N' ∨ t = 'E' ∨ t = 'P' ∨ t = 'M') ∧ (dr = 'F' ∨ dr = 'R') ∧
      ext ≠ [] ∧ ext.all isWordChar = true ∧
      dt = ⟨numVal y4, numVal mo2, numVal d2, numVal h2, numVal mi2, numVal s2⟩ := by
  unfold filename_match at h
  simp only [Option.bind_eq_some, Prod.exists, Option.ite_none_right_eq_some,
    Option.some.injEq, Prod.mk.injEq, Bool.and_eq_true, decide_eq_true_eq] at h
  obtain ⟨y, cs1, hy, mo, cs2, hmo, d, cs3, hd, cs4, hu1, hrv, cs5, hh, mi, cs6, hmi,
    s, cs7, hs, cs8, hu2, t2, cs9, ht, dr2, cs10, hdr, cs11, hdot,
    ⟨hne, hword⟩, hdt, hteq, hdreq, hexteq⟩ := h
  obtain ⟨y4, hcs, hylen, hyd, hyv⟩ := matchDigits_sound _ _ _ _ _ hy
  obtain ⟨mo2, hcs1, hmolen, hmod, hmov⟩ := matchDigits_sound _ _ _ _ _ hmo
  obtain ⟨d2, hcs2, hdlen, hdd, hdv⟩ := matchDigits_sound _ _ _ _ _ hd
  have hcs3 := matchLit_sound hu1
  obtain ⟨h2, hcs4, hhlen, hhd, hhv⟩ := matchDigits_sound _ _ _ _ _ hh
  obtain ⟨mi2, hcs5, hmilen, hmid, hmiv⟩ := matchDigits_sound _ _ _ _ _ hmi
  obtain ⟨s2, hcs6, hslen, hsd, hsv⟩ := matchDigits_sound _ _ _ _ _ hs
  have hcs7 := matchLit_sound hu2
  obtain ⟨hcs8, htmem⟩ := matchClass_sound ht
  obtain ⟨hcs9, hdrmem⟩ := matchClass_sound hdr
  have hcs10 := matchLit_sound hdot
  subst hcs hcs1 hcs2 hcs3 hcs4 hcs5 hcs6 hcs7 hcs8 hcs9 hcs10
  subst hteq hdreq hexteq
  refine ⟨y4, mo2, d2, h2, mi2, s2, rfl, hylen, hmolen, hdlen, hhlen, hmilen, hslen,
    hyd, hmod, hdd, hhd, hmid, hsd, ?_, ?_, hne, hword, ?_⟩
  · simpa using htmem
  · simpa using hdrmem
  · rw [← hdt]
    simp [hyv, hmov, hdv, hhv, hmiv, hsv, numVal]

theorem filename_match_isSome_iff {cs : List Char} :
    (filename_match cs).isSome = true ↔ specCanonicalPattern cs := by
  constructor
  · intro h
    obtain ⟨⟨dt, t, dr, ext⟩, hsome⟩ := Option.isSome_iff_exists.mp h
    obtain ⟨y4, mo2, d2, h2, mi2, s2, hcs, l1, l2, l3, l4, l5, l6,
      g1, g2, g3, g4, g5, g6, htc, hdc, hne, hw, _⟩ := filename_match_sound hsome
    exact ⟨y4, mo2, d2, h2, mi2, s2, t, dr, ext, hcs, l1, l2, l3, l4, l5, l6,
      g1, g2, g3, g4, g5, g6, htc, hdc, hne, hw⟩
  · intro h
    obtain ⟨y4, mo2, d2, h2, mi2, s2, t, dr, ext, hcs, l1, l2, l3, l4, l5, l6,
      g1, g2, g3, g4, g5, g6, htc, hdc, hne, hw⟩ := h
    rw [hcs, filename_match_complete y4 mo2 d2 h2 mi2 s2 t dr ext
      l1 l2 l3 l4 l5 l6 g1 g2 g3 g4 g5 g6 htc hdc hne hw]
    rfl

theorem get_recording_not_canonical {cs : List Char} (h : ¬ specCanonicalPattern cs) :
    get_recording cs = .ok none := by
  cases hm : filename_match cs with
  | none => unfold get_recording; rw [hm]
  | some r =>
      obtain ⟨dt, t, dr, ext⟩ := r
      exact absurd (filename_match_isSome_iff.mp (by rw [hm]; rfl)) h

theorem get_recording_shape {f : List Char} {rec : Recording}
    (h : get_recording f = .ok (some rec)) :
    rec.filename = f ∧ (∃ c rest, f = c :: rest ∧ c.isDigit = true) ∧ 8 ≤ f.length := by
  unfold get_recording at h
  cases hm : filename_match f with
  | none => rw [hm] at h; simp at h
  | some r =>
      obtain ⟨dt, t, dr, ext⟩ := r
      rw [hm] at h
      dsimp only at h
      by_cases hv : validDateTime dt = true
      · rw [if_pos hv] at h
        simp only [Except.ok.injEq, Option.some.injEq] at h
        obtain ⟨y4, mo2, d2, h2, mi2, s2, hcs, hylen, hrest⟩ := filename_match_sound hm
        refine ⟨by rw [← h], ?_, ?_⟩
        · cases y4 with
          | nil => simp at hylen
          | cons c y4' =>
              refine ⟨c, y4' ++ (mo2 ++ (d2 ++ ('_' :: (h2 ++ (mi2 ++
                (s2 ++ ('_' :: t :: dr :: '.' :: ext))))))), by simp [hcs], ?_⟩
              have := hrest.2.2.2.2.2.1
              simp only [List.all_cons, Bool.and_eq_true] at this
              exact this.1
        · rw [hcs]
          simp only [List.length_append, List.length_cons]
          omega
      · rw [if_neg hv] at h
        simp at h

/-! ### Lemmas about `file_line_match` and `get_filenames` -/

theorem file_line_match_iff {line f : List Char} :
    file_line_match line = some f ↔
      line = recPre ++ f ++ sizeSuffixL ∧ (∃ b, f = b ++ mp4SuffixL) ∧
        f.contains '\n' = false := by
  constructor
  · intro h
    unfold file_line_match at h
    by_cases hlen : line.length < 22
    · rw [if_pos hlen] at h
      simp at h
    · rw [if_neg hlen] at h
      simp only [Option.ite_none_right_eq_some, Option.some.injEq, Bool.and_eq_true,
        beq_iff_eq, Bool.not_eq_true'] at h
      obtain ⟨⟨⟨hline, hmp4⟩, hnl⟩, hf⟩ := h
      subst hf
      set f := (line.drop 10).take (line.length - 22) with hfdef
      refine ⟨hline, ⟨f.take (f.length - 4), ?_⟩, hnl⟩
      conv_lhs => rw [← List.take_append_drop (f.length - 4) f]
      rw [hmp4]
  · intro ⟨hline, ⟨b, hb⟩, hnl⟩
    have hflen : 4 ≤ f.length := by
      rw [hb]
      simp [mp4SuffixL]
    have hlinelen : line.length = f.length + 22 := by
      rw [hline]
      simp [recPre, sizeSuffixL, List.length_append]
    unfold file_line_match
    rw [if_neg (by omega)]
    have hdrop : line.drop 10 = f ++ sizeSuffixL := by
      rw [hline, List.append_assoc]
      exact List.drop_left' (by simp [recPre])
    have htake : (line.drop 10).take (line.length - 22) = f := by
      rw [hdrop]
      exact List.take_left' (by omega)
    rw [htake]
    have hmp4 : f.drop (f.length - 4) = mp4SuffixL := by
      rw [hb]
      have : (b ++ mp4SuffixL).length - 4 = b.length := by
        simp [mp4SuffixL]
      rw [this]
      exact List.drop_left' rfl
    have hnl' : '\n' ∉ f := by
      simpa using hnl
    simp [hline, hmp4, hnl']

theorem get_filenames_eq_filterMap (lines : List (List Char)) :
    get_filenames lines = lines.filterMap file_line_match := by
  induction lines with
  | nil => rfl
  | cons l rest ih =>
      cases hm : file_line_match l with
      | none =>
          unfold get_filenames
          rw [hm, ih, List.filterMap_cons_none hm]
      | some f =>
          unfold get_filenames
          rw [hm, ih, List.filterMap_cons_some hm]

theorem mem_get_filenames_mp4 {lines : List (List Char)} {f : List Char}
    (h : f ∈ get_filenames lines) : ∃ b, f = b ++ mp4SuffixL := by
  rw [get_filenames_eq_filterMap] at h
  obtain ⟨l, _, hm⟩ := List.mem_filterMap.mp h
  exact (file_line_match_iff.mp hm).2.1

/-! ### Lemmas about `keep_match` and `calc_cutoff_date` -/

theorem keep_match_complete {ds u : List Char} (hne : ds ≠ [])
    (hd : ds.all Char.isDigit = true) (hu : u = [] ∨ u = ['d'] ∨ u = ['w']) :
    keep_match (ds ++ u) = some (numVal ds, u) := by
  have hpos : ∀ a ∈ ds, a.isDigit = true := by
    intro a ha
    exact List.all_eq_true.mp hd a ha
  have hufalse : ∀ c cs, u = c :: cs → c.isDigit = false := by
    intro c cs hc
    rcases hu with h | h | h <;> rw [h] at hc
    · exact absurd hc (by simp)
    · cases hc
      rfl
    · cases hc
      rfl
  have htake : (ds ++ u).takeWhile Char.isDigit = ds := by
    rw [List.takeWhile_append_of_pos hpos]
    cases u with
    | nil => simp
    | cons c cs =>
        rw [List.takeWhile_cons, hufalse c cs rfl]
        simp
  have hdrop : (ds ++ u).dropWhile Char.isDigit = u := by
    rw [List.dropWhile_append_of_pos hpos]
    cases u with
    | nil => simp
    | cons c cs =>
        rw [List.dropWhile_cons, hufalse c cs rfl]
        simp
  have hbeq : (ds == ([] : List Char)) = false := by
    cases ds with
    | nil => exact absurd rfl hne
    | cons a as => rfl
  unfold keep_match
  rw [htake, hdrop, hbeq]
  rcases hu with h | h | h <;> subst h <;> rfl

theorem keep_match_sound {cs : List Char} {v : Nat} {u : List Char}
    (h : keep_match cs = some (v, u)) :
    ∃ ds, cs = ds ++ u ∧ ds ≠ [] ∧ ds.all Char.isDigit = true ∧ v = numVal ds ∧
      (u = [] ∨ u = ['d'] ∨ u = ['w']) := by
  unfold keep_match at h
  by_cases hds : (cs.takeWhile Char.isDigit == []) = true
  · rw [if_pos hds] at h
    simp at h
  · rw [if_neg hds] at h
    by_cases hrest : (cs.dropWhile Char.isDigit == [] || cs.dropWhile Char.isDigit == ['d'] ||
        cs.dropWhile Char.isDigit == ['w']) = true
    · rw [if_pos hrest] at h
      simp only [Option.some.injEq, Prod.mk.injEq] at h
      refine ⟨cs.takeWhile Char.isDigit, ?_, ?_, ?_, h.1.symm, ?_⟩
      · rw [← h.2]
        exact (List.takeWhile_append_dropWhile Char.isDigit cs).symm
      · intro hcontra
        rw [hcontra] at hds
        exact hds rfl
      · exact List.all_eq_true.mpr (fun a ha => List.mem_takeWhile_imp ha)
      · rw [← h.2]
        simp only [Bool.or_eq_true, beq_iff_eq] at hrest
        tauto
    · rw [if_neg hrest] at h
      simp at h

/-! ### Lemmas about the effects model -/

theorem download_file_exists {fs : List (List Char)} {f : List Char} (dry : Bool)
    (h : fs.contains f = true) :
    download_file fs f dry = (fs, [.attempt f, .printAlready f]) := by
  unfold download_file
  rw [if_pos h]

theorem download_file_attempts (fs : List (List Char)) (f : List Char) (dry : Bool) :
    attemptsOf (download_file fs f dry).2 = [f] := by
  by_cases h : f ∈ fs <;> by_cases ht : tempName f ∈ fs <;>
    cases dry <;> simp [download_file, h, ht, attemptsOf]

theorem download_file_dry (fs : List (List Char)) (f : List Char) :
    (download_file fs f true).1 = fs ∧
      ∀ e ∈ (download_file fs f true).2, e.isMutation = false := by
  by_cases h : f ∈ fs <;> by_cases ht : tempName f ∈ fs <;>
    simp [download_file, h, ht, Event.isMutation]

theorem download_file_run (fs : List (List Char)) (f : List Char) :
    f ∈ (download_file fs f false).1 ∧
      ∀ g ∈ fs, g.head? ≠ some '.' → g ∈ (download_file fs f false).1 := by
  by_cases h : fs.contains f = true
  · rw [download_file_exists false h]
    exact ⟨contains_iff.mp h, fun g hg _ => hg⟩
  · unfold download_file
    rw [if_neg h]
    dsimp only
    constructor
    · exact List.mem_cons_self _ _
    · intro g hg hgdot
      have hne : g ≠ tempName f := by
        intro hc
        rw [hc] at hgdot
        exact hgdot rfl
      exact List.mem_cons_of_mem _ ((List.mem_erase_of_ne hne).mpr hg)

theorem goodRec_head_ne_dot {r : Recording} (hg : GoodRec r) :
    ∀ n ∈ recAttempts r, n.head? ≠ some '.' := by
  obtain ⟨⟨c, rest, hf, hc⟩, hlen⟩ := hg
  have hcdot : c ≠ '.' := by
    intro hcd
    rw [hcd] at hc
    exact absurd hc (by decide)
  have hbase : ∃ k, r.filename.length - 7 = k + 1 := by
    refine ⟨r.filename.length - 8, ?_⟩
    omega
  obtain ⟨k, hk⟩ := hbase
  have hdrop : ∃ rest2, dropLastN r.filename 7 = c :: rest2 := by
    unfold dropLastN
    rw [hk, hf]
    exact ⟨rest.take k, rfl⟩
  obtain ⟨rest2, hrest2⟩ := hdrop
  intro n hn
  unfold recAttempts at hn
  rcases List.mem_cons.mp hn with hn | hn
  · rw [hn, hf]
    simp [hcdot]
  · by_cases hend : endsWithL nfSuffixL r.filename = true
    · rw [if_pos hend] at hn
      rcases List.mem_cons.mp hn with hn | hn
      · rw [hn]
        unfold gpsName
        rw [hrest2]
        simp [hcdot]
      · rcases List.mem_cons.mp hn with hn | hn
        · rw [hn]
          unfold tgfName
          rw [hrest2]
          simp [hcdot]
        · simp at hn
    · rw [if_neg hend] at hn
      simp at hn

theorem recAttempts_gps_mem {r : Recording} (hend : endsWithL nfSuffixL r.filename = true) :
    gpsName (dropLastN r.filename 7) ∈ recAttempts r := by
  unfold recAttempts
  rw [if_pos hend]
  simp

theorem recAttempts_tgf_mem {r : Recording} (hend : endsWithL nfSuffixL r.filename = true) :
    tgfName (dropLastN r.filename 7) ∈ recAttempts r := by
  unfold recAttempts
  rw [if_pos hend]
  simp

theorem recAttempts_self_mem (r : Recording) : r.filename ∈ recAttempts r :=
  List.mem_cons_self _ _

theorem download_recording_run {fs fs' : List (List Char)} {evs : List Event} {r : Recording}
    (hg : GoodRec r) (h : download_recording fs (some r) false = .ok (fs', evs)) :
    (∀ n ∈ recAttempts r, n ∈ fs') ∧ (∀ g ∈ fs, g.head? ≠ some '.' → g ∈ fs') := by
  have hdot := goodRec_head_ne_dot hg
  simp only [download_recording] at h
  by_cases hend : endsWithL nfSuffixL r.filename = true
  · rw [if_pos hend] at h
    simp only [Except.ok.injEq, Prod.mk.injEq] at h
    obtain ⟨hfs', -⟩ := h
    have h1 := download_file_run fs r.filename
    have h2 := download_file_run (download_file fs r.filename false).1
      (gpsName (dropLastN r.filename 7))
    have h3 := download_file_run
      (download_file (download_file fs r.filename false).1
        (gpsName (dropLastN r.filename 7)) false).1
      (tgfName (dropLastN r.filename 7))
    have hfd := hdot _ (recAttempts_self_mem r)
    have hgd := hdot _ (recAttempts_gps_mem hend)
    subst hfs'
    constructor
    · intro n hn
      unfold recAttempts at hn
      rw [if_pos hend] at hn
      simp only [List.mem_cons, List.not_mem_nil, or_false] at hn
      rcases hn with hn | hn | hn <;> subst hn
      · exact h3.2 _ (h2.2 _ h1.1 hfd) hfd
      · exact h3.2 _ h2.1 hgd
      · exact h3.1
    · intro g hgmem hgdot
      exact h3.2 _ (h2.2 _ (h1.2 _ hgmem hgdot) hgdot) hgdot
  · rw [if_neg hend] at h
    simp only [Except.ok.injEq, Prod.mk.injEq] at h
    obtain ⟨hfs', -⟩ := h
    have h1 := download_file_run fs r.filename
    subst hfs'
    constructor
    · intro n hn
      unfold recAttempts at hn
      rw [if_neg hend] at hn
      simp only [List.mem_cons, List.not_mem_nil, or_false] at hn
      subst hn
      exact h1.1
    · exact h1.2

theorem download_recording_replay {fs : List (List Char)} {r : Recording}
    (hmem : ∀ n ∈ recAttempts r, n ∈ fs) :
    ∃ evs, download_recording fs (some r) false = .ok (fs, evs) ∧
      ∀ e ∈ evs, e.isMutation = false := by
  have hf : fs.contains r.filename = true :=
    contains_iff.mpr (hmem _ (recAttempts_self_mem r))
  by_cases hend : endsWithL nfSuffixL r.filename = true
  · have hgps : fs.contains (gpsName (dropLastN r.filename 7)) = true :=
      contains_iff.mpr (hmem _ (recAttempts_gps_mem hend))
    have htgf : fs.contains (tgfName (dropLastN r.filename 7)) = true :=
      contains_iff.mpr (hmem _ (recAttempts_tgf_mem hend))
    have heq : download_recording fs (some r) false =
        .ok (fs, [Event.attempt r.filename, .printAlready r.filename,
          .attempt (gpsName (dropLastN r.filename 7)),
          .printAlready (gpsName (dropLastN r.filename 7)),
          .attempt (tgfName (dropLastN r.filename 7)),
          .printAlready (tgfName (dropLastN r.filename 7))]) := by
      simp only [download_recording, hend, if_true, download_file_exists false hf,
        download_file_exists false hgps, download_file_exists false htgf,
        List.cons_append, List.nil_append]
    refine ⟨_, heq, ?_⟩
    intro e he
    simp only [List.mem_cons, List.not_mem_nil, or_false] at he
    rcases he with he | he | he | he | he | he <;> subst he <;> rfl
  · have heq : download_recording fs (some r) false =
        .ok (fs, [Event.attempt r.filename, .printAlready r.filename]) := by
      simp only [download_recording]
      rw [if_neg hend]
      simp only [download_file_exists false hf]
    refine ⟨_, heq, ?_⟩
    intro e he
    simp only [List.mem_cons, List.not_mem_nil, or_false] at he
    rcases he with he | he <;> subst he <;> rfl

theorem download_recording_dry {fs fs' : List (List Char)} {evs : List Event}
    {rec : Option Recording} (h : download_recording fs rec true = .ok (fs', evs)) :
    fs' = fs ∧ ∀ e ∈ evs, e.isMutation = false := by
  cases rec with
  | none => simp [download_recording] at h
  | some r =>
      simp only [download_recording] at h
      have d1 := download_file_dry fs r.filename
      have d2 := download_file_dry (download_file fs r.filename true).1
        (gpsName (dropLastN r.filename 7))
      have d3 := download_file_dry
        (download_file (download_file fs r.filename true).1
          (gpsName (dropLastN r.filename 7)) true).1
        (tgfName (dropLastN r.filename 7))
      by_cases hend : endsWithL nfSuffixL r.filename = true
      · rw [if_pos hend] at h
        simp only [Except.ok.injEq, Prod.mk.injEq] at h
        obtain ⟨h1, h2⟩ := h
        constructor
        · rw [← h1, d3.1, d2.1, d1.1]
        · intro e he
          rw [← h2] at he
          simp only [List.mem_append] at he
          rcases he with (he | he) | he
          · exact d1.2 e he
          · exact d2.2 e he
          · exact d3.2 e he
      · rw [if_neg hend] at h
        simp only [Except.ok.injEq, Prod.mk.injEq] at h
        obtain ⟨h1, h2⟩ := h
        constructor
        · rw [← h1, d1.1]
        · intro e he
          rw [← h2] at he
          exact d1.2 e he

theorem download_loop_ok_some {recs : List (Option Recording)} :
    ∀ {fs fs2 : List (List Char)} {evs : List Event},
      download_loop fs false recs = .ok (fs2, evs) → ∀ orec ∈ recs, orec ≠ none := by
  induction recs with
  | nil =>
      intro fs fs2 evs _ orec ho
      simp at ho
  | cons orec rest ih =>
      intro fs fs2 evs h o ho
      cases orec with
      | none => simp [download_loop, download_recording] at h
      | some r =>
          rcases List.mem_cons.mp ho with ho | ho
          · subst ho
            simp
          · unfold download_loop at h
            cases h1 : download_recording fs (some r) false with
            | error e => rw [h1] at h; simp at h
            | ok p =>
                rw [h1] at h
                dsimp only at h
                cases h2 : download_loop p.1 false rest with
                | error e => rw [h2] at h; simp at h
                | ok q => exact ih h2 o ho

theorem download_loop_run {recs : List (Option Recording)} :
    ∀ {fs fs2 : List (List Char)} {evs : List Event},
      download_loop fs false recs = .ok (fs2, evs) →
      (∀ orec ∈ recs, ∀ r, orec = some r → GoodRec r) →
      (∀ orec ∈ recs, ∀ r, orec = some r → ∀ n ∈ recAttempts r, n ∈ fs2) ∧
        (∀ g ∈ fs, g.head? ≠ some '.' → g ∈ fs2) := by
  induction recs with
  | nil =>
      intro fs fs2 evs h _
      unfold download_loop at h
      simp only [Except.ok.injEq, Prod.mk.injEq] at h
      obtain ⟨h1, -⟩ := h
      subst h1
      exact ⟨by simp, fun g hg _ => hg⟩
  | cons orec rest ih =>
      intro fs fs2 evs h hgood
      cases orec with
      | none => simp [download_loop, download_recording] at h
      | some r =>
          unfold download_loop at h
          cases h1 : download_recording fs (some r) false with
          | error e => rw [h1] at h; simp at h
          | ok p =>
              rw [h1] at h
              dsimp only at h
              cases h2 : download_loop p.1 false rest with
              | error e => rw [h2] at h; simp at h
              | ok q =>
                  rw [h2] at h
                  simp only [Except.ok.injEq, Prod.mk.injEq] at h
                  obtain ⟨hq1, -⟩ := h
                  subst hq1
                  have hgr : GoodRec r := hgood _ (List.mem_cons_self _ _) r rfl
                  have hrun := download_recording_run hgr (by rw [h1])
                  have hrest := ih h2 (fun o ho r hr => hgood o (List.mem_cons_of_mem _ ho) r hr)
                  constructor
                  · intro o ho r2 hr2
                    rcases List.mem_cons.mp ho with ho | ho
                    · subst ho
                      obtain rfl := Option.some.inj hr2
                      intro n hn
                      exact hrest.2 n (hrun.1 n hn) (goodRec_head_ne_dot hgr n hn)
                    · exact hrest.1 o ho r2 hr2
                  · intro g hg hgd
                    exact hrest.2 g (hrun.2 g hg hgd) hgd

theorem download_loop_replay {recs : List (Option Recording)} :
    ∀ {fs : List (List Char)},
      (∀ orec ∈ recs, ∀ r, orec = some r → ∀ n ∈ recAttempts r, n ∈ fs) →
      (∀ orec ∈ recs, orec ≠ none) →
      ∃ evs, download_loop fs false recs = .ok (fs, evs) ∧
        ∀ e ∈ evs, e.isMutation = false := by
  induction recs with
  | nil =>
      intro fs _ _
      exact ⟨[], rfl, by simp⟩
  | cons orec rest ih =>
      intro fs hmem hsome
      cases orec with
      | none => exact absurd rfl (hsome none (List.mem_cons_self _ _))
      | some r =>
          obtain ⟨evs1, heq1, hmut1⟩ := download_recording_replay
            (hmem _ (List.mem_cons_self _ _) r rfl)
          obtain ⟨evs2, heq2, hmut2⟩ :=
            ih (fun o ho r2 hr2 => hmem o (List.mem_cons_of_mem _ ho) r2 hr2)
              (fun o ho => hsome o (List.mem_cons_of_mem _ ho))
          refine ⟨evs1 ++ evs2, ?_, ?_⟩
          · unfold download_loop
            rw [heq1]
            dsimp only
            rw [heq2]
          · intro e he
            rcases List.mem_append.mp he with he | he
            · exact hmut1 e he
            · exact hmut2 e he

theorem get_recordings_list_good {fnames : List (List Char)} :
    ∀ {recs : List (Option Recording)}, get_recordings_list fnames = .ok recs →
      ∀ orec ∈ recs, ∀ r, orec = some r → GoodRec r := by
  induction fnames with
  | nil =>
      intro recs h o ho r hr
      simp only [get_recordings_list, Except.ok.injEq] at h
      subst h
      simp at ho
  | cons f rest ih =>
      intro recs h o ho r hr
      unfold get_recordings_list at h
      cases h1 : get_recording f with
      | error e => rw [h1] at h; simp at h
      | ok orec0 =>
          rw [h1] at h
          dsimp only at h
          cases h2 : get_recordings_list rest with
          | error e => rw [h2] at h; simp at h
          | ok rs =>
              rw [h2] at h
              simp only [Except.ok.injEq] at h
              subst h
              rcases List.mem_cons.mp ho with ho | ho
              · subst ho
                subst hr
                obtain ⟨hfn, hhead, hlen⟩ := get_recording_shape h1
                constructor
                · rw [hfn]
                  exact hhead
                · rw [hfn]
                  exact hlen
              · exact ih h2 o ho r hr

theorem get_current_list_sublist {c : Date} {recs : List (Option Recording)} :
    ∀ {current : List (Option Recording)}, get_current_list c recs = .ok current →
      ∀ o ∈ current, o ∈ recs := by
  induction recs with
  | nil =>
      intro current h o ho
      simp only [get_current_list, Except.ok.injEq] at h
      subst h
      simp at ho
  | cons orec rest ih =>
      intro current h o ho
      cases orec with
      | none => simp [get_current_list] at h
      | some r =>
          unfold get_current_list at h
          cases h1 : get_current_list c rest with
          | error e => rw [h1] at h; simp at h
          | ok tail =>
              rw [h1] at h
              dsimp only at h
              simp only [Except.ok.injEq] at h
              subst h
              by_cases hd : (!dateLt r.datetime.dateOf c) = true
              · rw [if_pos hd] at ho
                rcases List.mem_cons.mp ho with ho | ho
                · subst ho
                  exact List.mem_cons_self _ _
                · exact List.mem_cons_of_mem _ (ih h1 o ho)
              · rw [if_neg hd] at ho
                exact List.mem_cons_of_mem _ (ih h1 o ho)

theorem get_current_recordings_sublist {cutoff : Option Date}
    {recs current : List (Option Recording)}
    (h : get_current_recordings cutoff recs = .ok current) : ∀ o ∈ current, o ∈ recs := by
  cases cutoff with
  | none =>
      simp only [get_current_recordings, Except.ok.injEq] at h
      subst h
      exact fun o ho => ho
  | some c => exact get_current_list_sublist h

theorem sync_replay {remote fs fs2 : List (List Char)} {evs : List Event}
    {cutoff : Option Date} (h : sync remote fs cutoff false = .ok (fs2, evs)) :
    ∃ evs2, sync remote fs2 cutoff false = .ok (fs2, evs2) ∧
      ∀ e ∈ evs2, e.isMutation = false := by
  unfold sync at h ⊢
  cases h1 : get_recordings_list (get_filenames remote) with
  | error e => rw [h1] at h; simp at h
  | ok recs =>
      rw [h1] at h
      dsimp only at h
      cases h2 : get_current_recordings cutoff recs with
      | error e => rw [h2] at h; simp at h
      | ok current =>
          rw [h2] at h
          have hgood : ∀ o ∈ current, ∀ r, o = some r → GoodRec r := fun o ho r hr =>
            get_recordings_list_good h1 o (get_current_recordings_sublist h2 o ho) r hr
          have hrun := download_loop_run h hgood
          have hsome := download_loop_ok_some h
          dsimp only
          rw [h2]
          exact download_loop_replay (fun o ho r hr => hrun.1 o ho r hr) hsome

theorem download_loop_dry {recs : List (Option Recording)} :
    ∀ {fs fs2 : List (List Char)} {evs : List Event},
      download_loop fs true recs = .ok (fs2, evs) →
      fs2 = fs ∧ ∀ e ∈ evs, e.isMutation = false := by
  induction recs with
  | nil =>
      intro fs fs2 evs h
      simp only [download_loop, Except.ok.injEq, Prod.mk.injEq] at h
      obtain ⟨h1, h2⟩ := h
      subst h1 h2
      simp
  | cons orec rest ih =>
      intro fs fs2 evs h
      unfold download_loop at h
      cases h1 : download_recording fs orec true with
      | error e => rw [h1] at h; simp at h
      | ok p =>
          rw [h1] at h
          dsimp only at h
          cases h2 : download_loop p.1 true rest with
          | error e => rw [h2] at h; simp at h
          | ok q =>
              rw [h2] at h
              simp only [Except.ok.injEq, Prod.mk.injEq] at h
              obtain ⟨hfs, hevs⟩ := h
              subst hfs hevs
              have hd1 := download_recording_dry (show download_recording fs orec true =
                .ok (p.1, p.2) by rw [h1])
              have hd2 := ih h2
              constructor
              · rw [hd2.1, hd1.1]
              · intro e he
                rcases List.mem_append.mp he with he | he
                · exact hd1.2 e he
                · exact hd2.2 e he

theorem sync_dry {remote fs fs2 : List (List Char)} {evs : List Event} {cutoff : Option Date}
    (h : sync remote fs cutoff true = .ok (fs2, evs)) :
    fs2 = fs ∧ ∀ e ∈ evs, e.isMutation = false := by
  unfold sync at h
  cases h1 : get_recordings_list (get_filenames remote) with
  | error e => rw [h1] at h; simp at h
  | ok recs =>
      rw [h1] at h
      dsimp only at h
      cases h2 : get_current_recordings cutoff recs with
      | error e => rw [h2] at h; simp at h
      | ok current =>
          rw [h2] at h
          exact download_loop_dry h

theorem prune_dry (files : List (List Char)) (outdated : List Recording) :
    prune files true outdated =
      (files, outdated.map fun r => Event.printWouldRemove r.filename) := by
  induction outdated with
  | nil => rfl
  | cons r rest ih => simp [prune, ih]

theorem prune_wet_events (files : List (List Char)) (outdated : List Recording) :
    (prune files false outdated).2 = outdated.map fun r => Event.remove r.filename := by
  induction outdated generalizing files with
  | nil => rfl
  | cons r rest ih => simp [prune, ih]

theorem prepare_destination_absent (d : Dest) (cutoff : Option Date) (dry : Bool)
    (hp : d.present = false) :
    prepare_destination d cutoff dry = .ok (⟨true, true, true, []⟩, [.makedirs]) := by
  unfold prepare_destination
  rw [hp]
  rfl

theorem prepare_destination_notdir (d : Dest) (cutoff : Option Date) (dry : Bool)
    (hp : d.present = true) (hd : d.isdir = false) :
    prepare_destination d cutoff dry = .error "destination is not a directory" := by
  unfold prepare_destination
  rw [hp, hd]
  rfl

theorem prepare_destination_notwritable (d : Dest) (cutoff : Option Date) (dry : Bool)
    (hp : d.present = true) (hd : d.isdir = true) (hw : d.writable = false) :
    prepare_destination d cutoff dry = .error "destination directory not writable" := by
  unfold prepare_destination
  rw [hp, hd, hw]
  rfl

theorem prepare_destination_nocutoff (d : Dest) (dry : Bool) (hp : d.present = true)
    (hd : d.isdir = true) (hw : d.writable = true) :
    prepare_destination d none dry = .ok (d, []) := by
  unfold prepare_destination
  rw [hp, hd, hw]
  rfl

theorem prepare_destination_ok {d : Dest} {c : Date} {rs : List Recording} (dry : Bool)
    (hp : d.present = true) (hd : d.isdir = true) (hw : d.writable = true)
    (hscan : get_destination_recordings d.files = .ok rs) :
    prepare_destination d (some c) dry =
      .ok ({ d with files := (prune d.files dry (get_outdated_recordings (some c) rs)).1 },
        (prune d.files dry (get_outdated_recordings (some c) rs)).2) := by
  unfold prepare_destination
  rw [hp, hd, hw, hscan]
  rfl

theorem prepare_destination_none_evs {d : Dest} {dry : Bool} {d' : Dest} {evs : List Event}
    (h : prepare_destination d none dry = .ok (d', evs)) :
    evs = [.makedirs] ∨ evs = [] := by
  cases hp : d.present with
  | false =>
      rw [prepare_destination_absent d none dry hp] at h
      simp only [Except.ok.injEq, Prod.mk.injEq] at h
      exact Or.inl h.2.symm
  | true =>
      cases hd : d.isdir with
      | false =>
          rw [prepare_destination_notdir d none dry hp hd] at h
          exact absurd h (by simp)
      | true =>
          cases hw : d.writable with
          | false =>
              rw [prepare_destination_notwritable d none dry hp hd hw] at h
              exact absurd h (by simp)
          | true =>
              rw [prepare_destination_nocutoff d dry hp hd hw] at h
              simp only [Except.ok.injEq, Prod.mk.injEq] at h
              exact Or.inr h.2.symm

theorem prepare_destination_dry {d : Dest} {cutoff : Option Date} {d' : Dest} {evs : List Event}
    (h : prepare_destination d cutoff true = .ok (d', evs)) :
    (∀ e ∈ evs, e.isMutation = true → e = .makedirs) ∧
      (d.present = true → (∀ e ∈ evs, e.isMutation = false) ∧ d'.files = d.files) := by
  cases hp : d.present with
  | false =>
      rw [prepare_destination_absent d cutoff true hp] at h
      simp only [Except.ok.injEq, Prod.mk.injEq] at h
      obtain ⟨-, hevs⟩ := h
      subst hevs
      constructor
      · intro e he _
        simp only [List.mem_cons, List.not_mem_nil, or_false] at he
        subst he
        rfl
      · intro hcontra
        exact absurd hcontra (by simp)
  | true =>
      cases hd : d.isdir with
      | false =>
          rw [prepare_destination_notdir d cutoff true hp hd] at h
          exact absurd h (by simp)
      | true =>
          cases hw : d.writable with
          | false =>
              rw [prepare_destination_notwritable d cutoff true hp hd hw] at h
              exact absurd h (by simp)
          | true =>
              cases cutoff with
              | none =>
                  rw [prepare_destination_nocutoff d true hp hd hw] at h
                  simp only [Except.ok.injEq, Prod.mk.injEq] at h
                  obtain ⟨hd', hevs⟩ := h
                  subst hevs
                  exact ⟨by simp, fun _ => ⟨by simp, by rw [← hd']⟩⟩
              | some c =>
                  cases hscan : get_destination_recordings d.files with
                  | error e =>
                      unfold prepare_destination at h
                      rw [hp, hd, hw, hscan] at h
                      exact absurd h (by simp)
                  | ok rs =>
                      rw [prepare_destination_ok true hp hd hw hscan] at h
                      rw [prune_dry] at h
                      simp only [Except.ok.injEq, Prod.mk.injEq] at h
                      obtain ⟨hd', hevs⟩ := h
                      subst hevs
                      have hmut : ∀ e ∈ (get_outdated_recordings (some c) rs).map
                          (fun r => Event.printWouldRemove r.filename), e.isMutation = false := by
                        intro e he
                        obtain ⟨r, -, hr⟩ := List.mem_map.mp he
                        rw [← hr]
                        rfl
                      refine ⟨fun e he hm => absurd hm (by rw [hmut e he]; simp),
                        fun _ => ⟨hmut, ?_⟩⟩
                      rw [← hd']

theorem endsWithL_iff {suf l : List Char} : endsWithL suf l = true ↔ ∃ b, l = b ++ suf := by
  unfold endsWithL
  rw [beq_iff_eq]
  constructor
  · intro h
    refine ⟨l.take (l.length - suf.length), ?_⟩
    conv_lhs => rw [← List.take_append_drop (l.length - suf.length) l]
    rw [h]
  · rintro ⟨b, rfl⟩
    have hlen : (b ++ suf).length - suf.length = b.length := by simp
    rw [hlen]
    exact List.drop_left' rfl

theorem attemptsOf_append (a b : List Event) :
    attemptsOf (a ++ b) = attemptsOf a ++ attemptsOf b := by
  unfold attemptsOf
  exact List.filterMap_append a b _

/-! ### Claims -/

/-- C1: the spec requires that a remote filename failing to parse must not
crash the sync.  The code violates this: the listing line
`n:/Record/foo.mp4,s:1000000\r\n` passes the remote-listing parser, the
filename `foo.mp4` parses to `None`, and `sync` then dereferences the `None`
(`recording.filename`, or `x.datetime` when a cutoff is set), raising
`AttributeError` — with or without a cutoff date. -/
theorem claim_C1_unparseable_crashes :
    get_filenames ["n:/Record/foo.mp4,s:1000000\r\n".toList] = ["foo.mp4".toList] ∧
    get_recording "foo.mp4".toList = .ok none ∧
    sync ["n:/Record/foo.mp4,s:1000000\r\n".toList] [] none false = .error "AttributeError" ∧
    sync ["n:/Record/foo.mp4,s:1000000\r\n".toList] [] (some ⟨2023, 1, 1⟩) false =
      .error "AttributeError" :=
  ⟨rfl, rfl, rfl, rfl⟩

/-- C2 counterexample: a line of the claimed shape
`n:/Record/<filename>,s:<size>\r\n` with decimal size `999` is silently
skipped (the source regex hardcodes the size `1000000`), so the parser does
not return its filename as the claim states. -/
theorem claim_C2_size_cex :
    specClaimedLine "n:/Record/20230101_000000_NF.mp4,s:999\r\n".toList
      "20230101_000000_NF.mp4".toList ∧
    get_filenames ["n:/Record/20230101_000000_NF.mp4,s:999\r\n".toList] = [] ∧
    get_filenames ["n:/Record/20230101_000000_NF.mp4,s:999\r\n".toList] ≠
      ["20230101_000000_NF.mp4".toList] :=
  ⟨⟨['9', '9', '9'], by decide, by decide, by decide⟩, rfl, by decide⟩

/-- C2 (amended): the remote-listing parser returns exactly the filenames of
the lines of the form `n:/Record/<filename>,s:1000000\r\n` whose filename
ends in `.mp4` and contains no newline — the size is the fixed literal
`1000000`, not arbitrary — in their original order, and silently skips every
other line. -/
theorem claim_C2_listing_amended :
    (∀ lines, get_filenames lines = lines.filterMap file_line_match) ∧
    (∀ l f, file_line_match l = some f ↔
      (l = recPre ++ f ++ sizeSuffixL ∧ (∃ b, f = b ++ mp4SuffixL) ∧
        f.contains '\n' = false)) :=
  ⟨get_filenames_eq_filterMap, fun _ _ => file_line_match_iff⟩

/-- C2 witness: the spec's own example listing evaluates as the amended claim
predicts. -/
theorem claim_C2_listing_witness :
    file_line_match "n:/Record/20230101_000000_NF.mp4,s:1000000\r\n".toList =
      some "20230101_000000_NF.mp4".toList ∧
    get_filenames ["v:1.00\r\n".toList,
        "n:/Record/20230101_000000_NF.mp4,s:1000000\r\n".toList] =
      ["20230101_000000_NF.mp4".toList] := by
  constructor
  · exact (claim_C2_listing_amended.2 _ _).mpr
      ⟨by decide, ⟨"20230101_000000_NF".toList, by decide⟩, by decide⟩
  · rw [claim_C2_listing_amended.1]
    rfl

/-- C4: for every filename of the canonical shape with a valid calendar
date-time, `get_recording` returns a `Recording` whose fields are exactly the
ones spelled in the filename; and for every string not matching the pattern it
returns `None` without raising. -/
theorem claim_C4_parse :
    (∀ (y4 mo2 d2 h2 mi2 s2 : List Char) (t dr : Char) (ext : List Char),
      y4.length = 4 → mo2.length = 2 → d2.length = 2 → h2.length = 2 → mi2.length = 2 →
      s2.length = 2 → y4.all Char.isDigit = true → mo2.all Char.isDigit = true →
      d2.all Char.isDigit = true → h2.all Char.isDigit = true → mi2.all Char.isDigit = true →
      s2.all Char.isDigit = true → (t = 'N' ∨ t = 'E' ∨ t = 'P' ∨ t = 'M') →
      (dr = 'F' ∨ dr = 'R') → ext ≠ [] → ext.all isWordChar = true →
      validDateTime ⟨numVal y4, numVal mo2, numVal d2, numVal h2, numVal mi2, numVal s2⟩ = true →
      get_recording
          (y4 ++ (mo2 ++ (d2 ++ ('_' :: (h2 ++ (mi2 ++ (s2 ++ ('_' :: t :: dr :: '.' :: ext)))))))) =
        .ok (some ⟨y4 ++ (mo2 ++ (d2 ++ ('_' :: (h2 ++ (mi2 ++ (s2 ++ ('_' :: t :: dr :: '.' :: ext))))))),
          ⟨numVal y4, numVal mo2, numVal d2, numVal h2, numVal mi2, numVal s2⟩, t, dr, ext⟩)) ∧
    (∀ cs, ¬ specCanonicalPattern cs → get_recording cs = .ok none) := by
  constructor
  · intro y4 mo2 d2 h2 mi2 s2 t dr ext l1 l2 l3 l4 l5 l6 g1 g2 g3 g4 g5 g6 ht hdr hne hw hv
    unfold get_recording
    rw [filename_match_complete y4 mo2 d2 h2 mi2 s2 t dr ext
      l1 l2 l3 l4 l5 l6 g1 g2 g3 g4 g5 g6 ht hdr hne hw]
    dsimp only
    rw [if_pos hv]
  · intro cs h
    exact get_recording_not_canonical h

/-- C4 witness: the spec's example filename round-trips, and a non-matching
name parses to absence. -/
theorem claim_C4_parse_witness :
    get_recording "20230615_142233_NF.mp4".toList =
      .ok (some ⟨"20230615_142233_NF.mp4".toList, ⟨2023, 6, 15, 14, 22, 33⟩, 'N', 'F',
        ['m', 'p', '4']⟩) ∧
    get_recording "foo.txt".toList = .ok none := by
  constructor
  · exact claim_C4_parse.1 ['2', '0', '2', '3'] ['0', '6'] ['1', '5'] ['1', '4'] ['2', '2']
      ['3', '3'] 'N' 'F' ['m', 'p', '4'] rfl rfl rfl rfl rfl rfl (by decide) (by decide)
      (by decide) (by decide) (by decide) (by decide) (Or.inl rfl) (Or.inl rfl) (by decide)
      (by decide) (by decide)
  · exact claim_C4_parse.2 _
      (fun hc => absurd (filename_match_isSome_iff.mpr hc) (by decide))

/-- C5 counterexample: the claim says the local scan never raises for any
entry name, but an entry matching the filename pattern with an invalid
calendar date (month 13) makes `datetime.datetime` raise `ValueError`, which
propagates out of the scan. -/
theorem claim_C5_scan_cex :
    get_destination_recordings ["20231301_000000_NF.mp4".toList] = .error "ValueError" := rfl

/-- C5 (amended): the local scan maps each entry through the filename parser
and silently drops every entry that does not match the canonical pattern (no
error for those), and every Recording it returns comes from an entry of the
listing that parses to exactly that Recording; entries that match the pattern
but have invalid calendar fields raise instead of being dropped. -/
theorem claim_C5_scan_amended :
    (∀ (files : List (List Char)) (f : List Char), ¬ specCanonicalPattern f →
      get_destination_recordings (f :: files) = get_destination_recordings files) ∧
    (∀ (files : List (List Char)) (rs : List Recording),
      get_destination_recordings files = .ok rs →
      ∀ r ∈ rs, r.filename ∈ files ∧ get_recording r.filename = .ok (some r)) := by
  constructor
  · intro files f hnc
    have hstep : get_destination_recordings (f :: files) =
        match get_recording f with
        | .error e => .error e
        | .ok r =>
            match get_destination_recordings files with
            | .error e => .error e
            | .ok rs =>
                .ok (match r with
                  | some rec => rec :: rs
                  | none => rs) := rfl
    rw [hstep, get_recording_not_canonical hnc]
    cases hrest : get_destination_recordings files with
    | error e => rfl
    | ok rs => rfl
  · intro files
    induction files with
    | nil =>
        intro rs h r hr
        simp only [get_destination_recordings, Except.ok.injEq] at h
        subst h
        simp at hr
    | cons f rest ih =>
        intro rs h r hr
        unfold get_destination_recordings at h
        cases h1 : get_recording f with
        | error e => rw [h1] at h; simp at h
        | ok orec =>
            rw [h1] at h
            dsimp only at h
            cases h2 : get_destination_recordings rest with
            | error e => rw [h2] at h; simp at h
            | ok rs2 =>
                rw [h2] at h
                dsimp only at h
                cases orec with
                | none =>
                    simp only [Except.ok.injEq] at h
                    subst h
                    obtain ⟨hmem, hrec⟩ := ih rs2 h2 r hr
                    exact ⟨List.mem_cons_of_mem _ hmem, hrec⟩
                | some rec0 =>
                    simp only [Except.ok.injEq] at h
                    subst h
                    rcases List.mem_cons.mp hr with hr | hr
                    · subst hr
                      have hshape := get_recording_shape h1
                      refine ⟨?_, ?_⟩
                      · rw [hshape.1]
                        exact List.mem_cons_self _ _
                      · rw [hshape.1]
                        exact h1
                    · obtain ⟨hmem, hrec⟩ := ih rs2 h2 r hr
                      exact ⟨List.mem_cons_of_mem _ hmem, hrec⟩

/-- C5 witness: a `.gps` side-car entry is dropped without error and the
remaining entry yields exactly its Recording. -/
theorem claim_C5_scan_witness :
    get_destination_recordings
        ["20230101_000000_N.gps".toList, "20230101_000000_NF.mp4".toList] =
      get_destination_recordings ["20230101_000000_NF.mp4".toList] ∧
    get_destination_recordings ["20230101_000000_NF.mp4".toList] =
      .ok [⟨"20230101_000000_NF.mp4".toList, ⟨2023, 1, 1, 0, 0, 0⟩, 'N', 'F',
        ['m', 'p', '4']⟩] :=
  ⟨claim_C5_scan_amended.1 _ _
      (fun hc => absurd (filename_match_isSome_iff.mpr hc) (by decide)), rfl⟩

/-- C10: every filename produced by the remote-listing parser ends in `.mp4`
(the source regex requires the filename group to match `.*\.mp4`). -/
theorem claim_C10_only_mp4 {lines : List (List Char)} {f : List Char}
    (h : f ∈ get_filenames lines) : ∃ b, f = b ++ mp4SuffixL :=
  mem_get_filenames_mp4 h

/-- C10 witness. -/
theorem claim_C10_only_mp4_witness :
    "20230101_000000_NF.mp4".toList ∈
      get_filenames ["n:/Record/20230101_000000_NF.mp4,s:1000000\r\n".toList] ∧
    ∃ b, "20230101_000000_NF.mp4".toList = b ++ mp4SuffixL :=
  ⟨by decide,
    @claim_C10_only_mp4 ["n:/Record/20230101_000000_NF.mp4,s:1000000\r\n".toList]
      "20230101_000000_NF.mp4".toList (by decide)⟩

/-- C6: the cutoff calculation fails exactly when the keep specification does
not fully match `(\d+)([dw]?)` or its magnitude is below 1; otherwise it
subtracts the magnitude in days (unit absent or `d`) or in weeks (unit `w`)
from today, in calendar days. -/
theorem claim_C6_cutoff :
    (∀ (ds : List Char) (today : Int), ds ≠ [] → ds.all Char.isDigit = true →
      1 ≤ numVal ds →
      calc_cutoff_date ds today = .ok (today - numVal ds) ∧
      calc_cutoff_date (ds ++ ['d']) today = .ok (today - numVal ds) ∧
      calc_cutoff_date (ds ++ ['w']) today = .ok (today - 7 * numVal ds)) ∧
    (∀ (cs : List Char) (today : Int), ¬ specKeepPattern cs →
      isErr (calc_cutoff_date cs today) = true) ∧
    (∀ (ds u : List Char) (today : Int), ds.all Char.isDigit = true →
      (u = [] ∨ u = ['d'] ∨ u = ['w']) → numVal ds < 1 →
      isErr (calc_cutoff_date (ds ++ u) today) = true) := by
  refine ⟨?_, ?_, ?_⟩
  · intro ds today hne hdig hge
    have hlt : ¬ numVal ds < 1 := by omega
    have h0 : keep_match ds = some (numVal ds, []) := by
      have := keep_match_complete hne hdig (Or.inl rfl)
      rwa [List.append_nil] at this
    have hd : keep_match (ds ++ ['d']) = some (numVal ds, ['d']) :=
      keep_match_complete hne hdig (Or.inr (Or.inl rfl))
    have hw : keep_match (ds ++ ['w']) = some (numVal ds, ['w']) :=
      keep_match_complete hne hdig (Or.inr (Or.inr rfl))
    refine ⟨?_, ?_, ?_⟩
    · unfold calc_cutoff_date
      rw [h0]
      dsimp only
      rw [if_neg hlt]
      rfl
    · unfold calc_cutoff_date
      rw [hd]
      dsimp only
      rw [if_neg hlt]
      rfl
    · unfold calc_cutoff_date
      rw [hw]
      dsimp only
      rw [if_neg hlt]
      rfl
  · intro cs today hnp
    cases hk : keep_match cs with
    | none =>
        unfold calc_cutoff_date
        rw [hk]
        rfl
    | some p =>
        obtain ⟨v, u⟩ := p
        obtain ⟨ds, hcs, hne, hdig, -, hu⟩ := keep_match_sound hk
        exact absurd ⟨ds, u, hcs, hne, hdig, hu⟩ hnp
  · intro ds u today hdig hu hlt
    by_cases hne : ds = []
    · subst hne
      rcases hu with h | h | h <;> subst h <;> rfl
    · have hk := keep_match_complete hne hdig hu
      unfold calc_cutoff_date
      rw [hk]
      dsimp only
      rw [if_pos hlt]
      rfl

/-- C6 witness: the spec's concrete examples. -/
theorem claim_C6_cutoff_witness :
    calc_cutoff_date "7".toList 100 = .ok 93 ∧
    calc_cutoff_date "2w".toList 100 = .ok 86 ∧
    isErr (calc_cutoff_date "0".toList 100) = true ∧
    isErr (calc_cutoff_date "abc".toList 100) = true := by
  refine ⟨?_, ?_, ?_, ?_⟩
  · exact (claim_C6_cutoff.1 ['7'] 100 (by decide) (by decide) (by decide)).1
  · exact (claim_C6_cutoff.1 ['2'] 100 (by decide) (by decide) (by decide)).2.2
  · exact claim_C6_cutoff.2.2 ['0'] [] 100 (by decide) (Or.inl rfl) (by decide)
  · refine claim_C6_cutoff.2.1 "abc".toList 100 ?_
    rintro ⟨ds, u, hcs, hne, hdig, -⟩
    cases ds with
    | nil => exact hne rfl
    | cons c cs2 =>
        have hc : c = 'a' := by
          have hh := congrArg List.head? hcs
          simpa using hh.symm
        have hcd : c.isDigit = true := by
          simp only [List.all_cons, Bool.and_eq_true] at hdig
          exact hdig.1
        rw [hc] at hcd
        exact absurd hcd (by decide)

/-- C3 counterexample: with the dry-run flag set and an absent destination,
the run still creates the destination directory (`os.makedirs` is not guarded
by `dry_run`), so a dry run is not free of filesystem mutations. -/
theorem claim_C3_dryrun_cex :
    run_model ⟨false, false, false, []⟩ [] none true =
      .ok (⟨true, true, true, []⟩, [.makedirs]) ∧
    Event.makedirs.isMutation = true :=
  ⟨rfl, rfl⟩

/-- C3 (amended): in dry-run mode the only filesystem mutation a run can
perform is creating a missing destination directory; no download, rename or
deletion ever happens, and when the destination already exists no mutation at
all occurs and its contents are unchanged — deletions and downloads are only
reported. -/
theorem claim_C3_dryrun_amended {d : Dest} {remote : List (List Char)}
    {cutoff : Option Date} {d' : Dest} {evs : List Event}
    (h : run_model d remote cutoff true = .ok (d', evs)) :
    (∀ e ∈ evs, e.isMutation = true → e = .makedirs) ∧
      (d.present = true → (∀ e ∈ evs, e.isMutation = false) ∧ d'.files = d.files) := by
  unfold run_model at h
  cases h1 : prepare_destination d cutoff true with
  | error e => rw [h1] at h; simp at h
  | ok p =>
      rw [h1] at h
      dsimp only at h
      cases h2 : sync remote p.1.files cutoff true with
      | error e => rw [h2] at h; simp at h
      | ok q =>
          rw [h2] at h
          simp only [Except.ok.injEq, Prod.mk.injEq] at h
          obtain ⟨hd', hevs⟩ := h
          subst hevs
          have hprep := prepare_destination_dry
            (show prepare_destination d cutoff true = .ok (p.1, p.2) by rw [h1])
          have hsync := sync_dry
            (show sync remote p.1.files cutoff true = .ok (q.1, q.2) by rw [h2])
          constructor
          · intro e he hm
            rcases List.mem_append.mp he with he | he
            · exact hprep.1 e he hm
            · exact absurd hm (by rw [hsync.2 e he]; simp)
          · intro hpres
            obtain ⟨hmut1, hfiles1⟩ := hprep.2 hpres
            refine ⟨?_, ?_⟩
            · intro e he
              rcases List.mem_append.mp he with he | he
              · exact hmut1 e he
              · exact hsync.2 e he
            · rw [← hd']
              dsimp only
              rw [hsync.1, hfiles1]

/-- C3 witness: a dry run over an existing destination with one stale local
file and one new remote file mutates nothing. -/
theorem claim_C3_dryrun_witness :
    run_model ⟨true, true, true, ["20230101_000000_NR.mp4".toList]⟩
        ["n:/Record/20230601_000000_NR.mp4,s:1000000\r\n".toList]
        (some ⟨2023, 3, 1⟩) true =
      .ok (⟨true, true, true, ["20230101_000000_NR.mp4".toList]⟩,
        [.printWouldRemove "20230101_000000_NR.mp4".toList,
         .attempt "20230601_000000_NR.mp4".toList,
         .printWouldDownload "20230601_000000_NR.mp4".toList]) ∧
    (∀ e ∈ [Event.printWouldRemove "20230101_000000_NR.mp4".toList,
        Event.attempt "20230601_000000_NR.mp4".toList,
        Event.printWouldDownload "20230601_000000_NR.mp4".toList], e.isMutation = false) := by
  constructor
  · rfl
  · exact ((claim_C3_dryrun_amended
      (show run_model ⟨true, true, true, ["20230101_000000_NR.mp4".toList]⟩
          ["n:/Record/20230601_000000_NR.mp4,s:1000000\r\n".toList]
          (some ⟨2023, 3, 1⟩) true =
        .ok (⟨true, true, true, ["20230101_000000_NR.mp4".toList]⟩,
          [.printWouldRemove "20230101_000000_NR.mp4".toList,
           .attempt "20230601_000000_NR.mp4".toList,
           .printWouldDownload "20230601_000000_NR.mp4".toList]) from rfl)).2 rfl).1

/-- C7: with a cutoff set and dry-run off, destination preparation removes
exactly the local recordings dated strictly before the cutoff; with dry-run on
it removes nothing, leaves the directory unchanged and reports exactly those
same files; and with no cutoff set it never removes anything. -/
theorem claim_C7_pruning :
    (∀ (d : Dest) (c : Date) (d' : Dest) (evs : List Event) (rs : List Recording),
      d.present = true → d.isdir = true → d.writable = true →
      get_destination_recordings d.files = .ok rs →
      prepare_destination d (some c) false = .ok (d', evs) →
      ∀ f, Event.remove f ∈ evs ↔
        ∃ r ∈ rs, r.filename = f ∧ dateLt r.datetime.dateOf c = true) ∧
    (∀ (d : Dest) (c : Date) (d' : Dest) (evs : List Event) (rs : List Recording),
      d.present = true → d.isdir = true → d.writable = true →
      get_destination_recordings d.files = .ok rs →
      prepare_destination d (some c) true = .ok (d', evs) →
      d'.files = d.files ∧ (∀ f, Event.remove f ∉ evs) ∧
      (∀ f, Event.printWouldRemove f ∈ evs ↔
        ∃ r ∈ rs, r.filename = f ∧ dateLt r.datetime.dateOf c = true)) ∧
    (∀ (d : Dest) (dry : Bool) (d' : Dest) (evs : List Event),
      prepare_destination d none dry = .ok (d', evs) → ∀ f, Event.remove f ∉ evs) := by
  refine ⟨?_, ?_, ?_⟩
  · intro d c d' evs rs hp hd hw hscan h
    rw [prepare_destination_ok false hp hd hw hscan] at h
    simp only [Except.ok.injEq, Prod.mk.injEq] at h
    obtain ⟨-, hevs⟩ := h
    subst hevs
    intro f
    rw [prune_wet_events]
    simp only [List.mem_map, get_outdated_recordings, List.mem_filter, Event.remove.injEq]
    constructor
    · rintro ⟨r, ⟨hmem, hdate⟩, hfn⟩
      exact ⟨r, hmem, hfn, hdate⟩
    · rintro ⟨r, hmem, hfn, hdate⟩
      exact ⟨r, ⟨hmem, hdate⟩, hfn⟩
  · intro d c d' evs rs hp hd hw hscan h
    rw [prepare_destination_ok true hp hd hw hscan, prune_dry] at h
    simp only [Except.ok.injEq, Prod.mk.injEq] at h
    obtain ⟨hd', hevs⟩ := h
    subst hevs
    refine ⟨?_, ?_, ?_⟩
    · rw [← hd']
    · intro f hf
      obtain ⟨r, -, hr⟩ := List.mem_map.mp hf
      exact absurd hr (by simp)
    · intro f
      simp only [List.mem_map, get_outdated_recordings, List.mem_filter,
        Event.printWouldRemove.injEq]
      constructor
      · rintro ⟨r, ⟨hmem, hdate⟩, hfn⟩
        exact ⟨r, hmem, hfn, hdate⟩
      · rintro ⟨r, hmem, hfn, hdate⟩
        exact ⟨r, ⟨hmem, hdate⟩, hfn⟩
  · intro d dry d' evs h f hf
    rcases prepare_destination_none_evs h with hevs | hevs <;> subst hevs <;> simp at hf

/-- C7 witness: for a destination holding one outdated and one current
recording, the non-dry prune removes exactly the outdated file. -/
theorem claim_C7_pruning_witness :
    (Event.remove "20230101_000000_NF.mp4".toList ∈ [Event.remove "20230101_000000_NF.mp4".toList] ↔
      ∃ r ∈ ([⟨"20230101_000000_NF.mp4".toList, ⟨2023, 1, 1, 0, 0, 0⟩, 'N', 'F', ['m', 'p', '4']⟩,
          ⟨"20230601_000000_NF.mp4".toList, ⟨2023, 6, 1, 0, 0, 0⟩, 'N', 'F', ['m', 'p', '4']⟩] :
            List Recording),
        r.filename = "20230101_000000_NF.mp4".toList ∧
          dateLt r.datetime.dateOf ⟨2023, 3, 1⟩ = true) ∧
    Event.remove "20230601_000000_NF.mp4".toList ∉ [Event.remove "20230101_000000_NF.mp4".toList] := by
  constructor
  · exact claim_C7_pruning.1
      ⟨true, true, true, ["20230101_000000_NF.mp4".toList, "20230601_000000_NF.mp4".toList]⟩
      ⟨2023, 3, 1⟩ ⟨true, true, true, ["20230601_000000_NF.mp4".toList]⟩
      [Event.remove "20230101_000000_NF.mp4".toList]
      [⟨"20230101_000000_NF.mp4".toList, ⟨2023, 1, 1, 0, 0, 0⟩, 'N', 'F', ['m', 'p', '4']⟩,
       ⟨"20230601_000000_NF.mp4".toList, ⟨2023, 6, 1, 0, 0, 0⟩, 'N', 'F', ['m', 'p', '4']⟩]
      rfl rfl rfl rfl rfl "20230101_000000_NF.mp4".toList
  · decide

/-- C8: downloading a recording attempts companion downloads exactly when its
filename ends in `_NF.mp4`; the companions are `<base>_N.gps` and
`<base>_N.3gf` where `<base>` is the filename with the trailing `_NF.mp4`
removed, and any other filename triggers exactly one attempt. -/
theorem claim_C8_companions {fs fs' : List (List Char)} {evs : List Event} {r : Recording}
    {dry : Bool} (h : download_recording fs (some r) dry = .ok (fs', evs)) :
    ((¬ ∃ b, r.filename = b ++ nfSuffixL) → attemptsOf evs = [r.filename]) ∧
    (∀ b, r.filename = b ++ nfSuffixL →
      attemptsOf evs = [r.filename, gpsName b, tgfName b]) := by
  constructor
  · intro hnb
    have hend : ¬ endsWithL nfSuffixL r.filename = true := fun hc =>
      absurd (endsWithL_iff.mp hc) hnb
    unfold download_recording at h
    dsimp only at h
    rw [if_neg hend] at h
    simp only [Except.ok.injEq, Prod.mk.injEq] at h
    obtain ⟨-, hevs⟩ := h
    subst hevs
    exact download_file_attempts fs r.filename dry
  · intro b hb
    have hend : endsWithL nfSuffixL r.filename = true := endsWithL_iff.mpr ⟨b, hb⟩
    have hbase : dropLastN r.filename 7 = b := by
      rw [hb]
      unfold dropLastN
      have hlen : (b ++ nfSuffixL).length - 7 = b.length := by simp [nfSuffixL]
      rw [hlen]
      exact List.take_left' rfl
    unfold download_recording at h
    dsimp only at h
    rw [if_pos hend] at h
    simp only [Except.ok.injEq, Prod.mk.injEq] at h
    obtain ⟨-, hevs⟩ := h
    subst hevs
    rw [attemptsOf_append, attemptsOf_append, download_file_attempts,
      download_file_attempts, download_file_attempts, hbase]
    rfl

/-- C8 witness: the spec's examples — a front normal recording triggers its
two companions, a rear recording triggers none. -/
theorem claim_C8_companions_witness :
    attemptsOf [Event.attempt "20230101_000000_NF.mp4".toList,
        .printWouldDownload "20230101_000000_NF.mp4".toList,
        .attempt "20230101_000000_N.gps".toList,
        .printWouldDownload "20230101_000000_N.gps".toList,
        .attempt "20230101_000000_N.3gf".toList,
        .printWouldDownload "20230101_000000_N.3gf".toList] =
      ["20230101_000000_NF.mp4".toList, "20230101_000000_N.gps".toList,
        "20230101_000000_N.3gf".toList] ∧
    attemptsOf [Event.attempt "20230101_000000_NR.mp4".toList,
        .printWouldDownload "20230101_000000_NR.mp4".toList] =
      ["20230101_000000_NR.mp4".toList] := by
  constructor
  · exact (claim_C8_companions
      (show download_recording [] (some ⟨"20230101_000000_NF.mp4".toList,
          ⟨2023, 1, 1, 0, 0, 0⟩, 'N', 'F', ['m', 'p', '4']⟩) true =
        .ok ([], [Event.attempt "20230101_000000_NF.mp4".toList,
          .printWouldDownload "20230101_000000_NF.mp4".toList,
          .attempt "20230101_000000_N.gps".toList,
          .printWouldDownload "20230101_000000_N.gps".toList,
          .attempt "20230101_000000_N.3gf".toList,
          .printWouldDownload "20230101_000000_N.3gf".toList]) from rfl)).2
      "20230101_000000".toList rfl
  · exact (claim_C8_companions
      (show download_recording [] (some ⟨"20230101_000000_NR.mp4".toList,
          ⟨2023, 1, 1, 0, 0, 0⟩, 'N', 'R', ['m', 'p', '4']⟩) true =
        .ok ([], [Event.attempt "20230101_000000_NR.mp4".toList,
          .printWouldDownload "20230101_000000_NR.mp4".toList]) from rfl)).1
      (fun hb => absurd (endsWithL_iff.mpr hb) (by decide))

/-- C9: `download_file` is idempotent — if the target filename already exists
in the destination, it performs no network transfer and no filesystem change,
only reporting the file as already downloaded; consequently a second `sync`
against the same listing, cutoff and destination state performs no mutation at
all (zero downloads) and leaves the destination state fixed. -/
theorem claim_C9_idempotent :
    (∀ (fs : List (List Char)) (f : List Char) (dry : Bool), fs.contains f = true →
      download_file fs f dry = (fs, [.attempt f, .printAlready f])) ∧
    (∀ (remote fs fs2 : List (List Char)) (evs : List Event) (cutoff : Option Date),
      sync remote fs cutoff false = .ok (fs2, evs) →
      ∃ evs2, sync remote fs2 cutoff false = .ok (fs2, evs2) ∧
        ∀ e ∈ evs2, e.isMutation = false) :=
  ⟨fun _ _ dry h => download_file_exists dry h, fun _ _ _ _ _ h => sync_replay h⟩

/-- C9 witness: a concrete first run downloads one file; replaying it on the
resulting state only reports the file as already present. -/
theorem claim_C9_idempotent_witness :
    download_file [['a']] ['a'] false = ([['a']], [.attempt ['a'], .printAlready ['a']]) ∧
    ∀ e ∈ [Event.attempt "20230101_000000_NR.mp4".toList,
        Event.printAlready "20230101_000000_NR.mp4".toList], e.isMutation = false := by
  refine ⟨claim_C9_idempotent.1 [['a']] ['a'] false (by decide), ?_⟩
  obtain ⟨evs2, heq, hmut⟩ := claim_C9_idempotent.2
    ["n:/Record/20230101_000000_NR.mp4,s:1000000\r\n".toList] []
    ["20230101_000000_NR.mp4".toList]
    [Event.attempt "20230101_000000_NR.mp4".toList,
      .printDownloading "20230101_000000_NR.mp4".toList,
      .retrieve "20230101_000000_NR.mp4".toList,
      .rename ('.' :: "20230101_000000_NR.mp4".toList) "20230101_000000_NR.mp4".toList]
    none rfl
  have hconc : sync ["n:/Record/20230101_000000_NR.mp4,s:1000000\r\n".toList]
      ["20230101_000000_NR.mp4".toList] none false =
      .ok (["20230101_000000_NR.mp4".toList],
        [Event.attempt "20230101_000000_NR.mp4".toList,
          Event.printAlready "20230101_000000_NR.mp4".toList]) := rfl
  have hevs2 : evs2 = [Event.attempt "20230101_000000_NR.mp4".toList,
      Event.printAlready "20230101_000000_NR.mp4".toList] := by
    have hh := heq.symm.trans hconc
    simpa using hh
  rw [← hevs2]
  exact hmut

end BlackVueSync
